import Mathlib

/-!
Verification of the circular-buffer specification of trial.circular
(`include/trial/circular/vector.hpp`).

The repository file `vector.hpp` only declares the owning container and
forwards every behavioural operation to the circular index core
(`trial::circular::span`, implemented in `span.hpp`) or to the
out-of-line constructor bodies (`detail/vector.ipp`); neither of those
files is part of the source tree given here.  The circular index core is
therefore modelled from the specification (spec.md §3 "Data model" and
§4.1 "Circular index core"), and every definition below carries a doc
comment naming the part of the spec it comes from.
-/

set_option linter.unusedSectionVars false

namespace TrialCircular

/-- Modelled from the spec: the circular index state of §3 (the code for
`trial::circular::span` in `span.hpp` is missing from the tree).  A
contiguous fixed-length storage block of `capacity` slots, a physical
`head` index of the logical front element, and a live-element `count`.
The capacity is the length of the storage block and is immutable. -/
structure CVec (α : Type) where
  storage : List α
  head : Nat
  count : Nat
deriving Repr, DecidableEq

namespace CVec

variable {α : Type} [Inhabited α]

/-- Modelled from the spec: `capacity()` returns `C`, the fixed length of
the storage block. -/
def capacity (s : CVec α) : Nat :=
  s.storage.length

/-- Modelled from the spec: `size()` returns `count`. -/
def size (s : CVec α) : Nat :=
  s.count

/-- Modelled from the spec: `empty()` holds iff `count == 0`. -/
def empty (s : CVec α) : Bool :=
  s.count == 0

/-- Modelled from the spec: `full()` holds iff `count == capacity`. -/
def full (s : CVec α) : Bool :=
  s.count == s.capacity

/-- Modelled from the spec: `operator[](i)` maps logical position `i` to
physical slot `(head + i) mod capacity` (§3, §4.1).  Reads outside the
precondition `i < count` are a contract error; the model returns the
default element there. -/
def get (s : CVec α) (i : Nat) : α :=
  (s.storage[(s.head + i) % s.capacity]?).getD default

/-- Modelled from the spec: `front()` is the logical first live element. -/
def front (s : CVec α) : α :=
  s.get 0

/-- Modelled from the spec: `back()` is the logical last live element. -/
def back (s : CVec α) : α :=
  s.get (s.count - 1)

/-- Modelled from the spec: `push_back(value)` (§4.1).  If not full,
constructs `value` at slot `(head + count) mod capacity` and increments
`count`; if full, the overwrite-oldest policy destroys the front
element, advances `head` by one (mod capacity) and writes `value` at the
vacated back slot, leaving `count` at `capacity`.  When the capacity is
zero the buffer is permanently empty and full and the push is a no-op
(§3 invariants, §8 capacity-0 scenario). -/
def push_back (v : α) (s : CVec α) : CVec α :=
  if s.capacity = 0 then s
  else if s.count = s.capacity then
    { storage := s.storage.set (s.head % s.capacity) v
      head := (s.head + 1) % s.capacity
      count := s.count }
  else
    { storage := s.storage.set ((s.head + s.count) % s.capacity) v
      head := s.head
      count := s.count + 1 }

/-- Modelled from the spec: `push_front(value)` (§4.1), symmetric to
`push_back`.  If not full, decrements `head` (mod capacity), constructs
`value` there and increments `count`; if full, overwrites the back
element (the newest) and decrements `head`.  A capacity-zero buffer
ignores the push. -/
def push_front (v : α) (s : CVec α) : CVec α :=
  if s.capacity = 0 then s
  else if s.count = s.capacity then
    { storage := s.storage.set ((s.head + s.capacity - 1) % s.capacity) v
      head := (s.head + s.capacity - 1) % s.capacity
      count := s.count }
  else
    { storage := s.storage.set ((s.head + s.capacity - 1) % s.capacity) v
      head := (s.head + s.capacity - 1) % s.capacity
      count := s.count + 1 }

/-- Modelled from the spec: `pop_back()` destroys the back element and
decrements `count` (§4.1; precondition: not empty). -/
def pop_back (s : CVec α) : CVec α :=
  { s with count := s.count - 1 }

/-- Modelled from the spec: `pop_front()` destroys the front element,
decrements `count` and advances `head` (mod capacity) (§4.1;
precondition: not empty). -/
def pop_front (s : CVec α) : CVec α :=
  { s with head := (s.head + 1) % s.capacity, count := s.count - 1 }

/-- Modelled from the spec: `move_back()` returns the back element by
value-move and performs the same index update as `pop_back` (§4.1;
precondition: not empty). -/
def move_back (s : CVec α) : α × CVec α :=
  (s.back, s.pop_back)

/-- Modelled from the spec: `move_front()` returns the front element by
value-move and performs the same index update as `pop_front` (§4.1;
precondition: not empty). -/
def move_front (s : CVec α) : α × CVec α :=
  (s.front, s.pop_front)

/-- Modelled from the spec: `clear()` destroys all live elements and
resets `count` to 0, with `head` reset (§4.1); capacity is unchanged. -/
def clear (s : CVec α) : CVec α :=
  { s with head := 0, count := 0 }

/-- Modelled from the spec: `assign(first, last)` is equivalent to
`clear()` followed by a `push_back` of each input element in order
(§4.1). -/
def assign (l : List α) (s : CVec α) : CVec α :=
  l.foldl (fun t v => push_back v t) s.clear

/-- The logical front-to-back contents of the buffer: the element of
each logical position `0 <= i < count` under the `(head + i) mod
capacity` mapping of §3. -/
def toList (s : CVec α) : List α :=
  (List.range s.count).map s.get

/-- Modelled from the spec: iteration from `begin()` to `end()` (§4.1)
visits the live elements in logical order, dereferencing through the
same `(head + i) mod capacity` mapping and advancing one logical
position per step until `count` elements have been produced.  The first
argument counts the remaining steps, the second is the current logical
position. -/
def iterAux (s : CVec α) : Nat → Nat → List α
  | 0, _ => []
  | n + 1, i => s.get i :: iterAux s n (i + 1)

/-- Modelled from the spec: the whole sequence produced by one traversal
from `begin()` to `end()`. -/
def iteration (s : CVec α) : List α :=
  iterAux s s.count 0

/-- Modelled from the spec: the range constructor
`vector(first, last)` of `vector.hpp` (body in the missing
`detail/vector.ipp`): capacity is set to the input length and all input
elements become live, in input order (§4.2; doc comment of
`vector.hpp`:119-126). -/
def fromList (l : List α) : CVec α :=
  { storage := l, head := 0, count := l.length }

/-- Modelled from the spec: the capacity constructor
`vector(size_type capacity)` (body in the missing `detail/vector.ipp`):
an empty buffer whose storage block has the requested length, slots
default-constructed (`vector.hpp`:78-85). -/
def withCapacity (n : Nat) : CVec α :=
  { storage := List.replicate n default, head := 0, count := 0 }

/-- Modelled from the spec: the default constructor (`vector.hpp`:38-43):
no capacity, no elements. -/
def mkEmpty : CVec α :=
  { storage := [], head := 0, count := 0 }

/-- Modelled from the spec: move construction (`vector.hpp`:61-63, body
defaulted; §4.2 "move transfers storage ownership and leaves the source
logically empty with zero capacity").  Returns the destination paired
with the moved-from source. -/
def moveConstruct (s : CVec α) : CVec α × CVec α :=
  (s, mkEmpty)

/-- Modelled from the spec: `operator=(std::initializer_list)`
(`vector.hpp`:112-117, body in the missing `detail/vector.ipp`):
recreates the circular vector so that `capacity() == input.size()` and
`size() == input.size()`, all input elements live in input order. -/
def assignInitList (l : List α) (_s : CVec α) : CVec α :=
  fromList l

/-- Modelled from the spec: the mutating operations a client can apply
(§4.1); used to quantify over "any sequence of operations". -/
inductive Op (α : Type) where
  | pushB (v : α)
  | pushF (v : α)
  | popB
  | popF
  | clearOp
  | assignOp (l : List α)
deriving Repr, DecidableEq

/-- Modelled from the spec: apply one mutating operation. -/
def applyOp (s : CVec α) : Op α → CVec α
  | .pushB v => push_back v s
  | .pushF v => push_front v s
  | .popB => s.pop_back
  | .popF => s.pop_front
  | .clearOp => s.clear
  | .assignOp l => assign l s

/-- Modelled from the spec: apply a sequence of mutating operations in
order. -/
def applyOps (ops : List (Op α)) (s : CVec α) : CVec α :=
  ops.foldl applyOp s

/-- Well-formedness of a circular index state (the invariants of §3):
the live count never exceeds the capacity and the head is a valid
physical index (with `head = 0` for a capacity-zero buffer). -/
def WF (s : CVec α) : Prop :=
  s.count ≤ s.capacity ∧ (s.head < s.capacity ∨ s.head = 0)

instance (s : CVec α) : Decidable s.WF := by
  unfold WF; infer_instance

/-- The last `n` elements of a list (the suffix that survives repeated
overwrite-oldest pushes into a capacity-`n` buffer). -/
def lastN (n : Nat) (l : List α) : List α :=
  l.drop (l.length - n)

end CVec

namespace CVec

variable {α : Type} [Inhabited α]

theorem length_toList (s : CVec α) : s.toList.length = s.count := by
  simp [toList]

theorem slot_inj {cap hd i j : Nat} (hh : hd < cap) (hi : i < cap) (hj : j < cap)
    (h : (hd + i) % cap = (hd + j) % cap) : i = j := by
  rcases Nat.lt_or_ge (hd + i) cap with h1 | h1 <;>
    rcases Nat.lt_or_ge (hd + j) cap with h2 | h2
  · rw [Nat.mod_eq_of_lt h1, Nat.mod_eq_of_lt h2] at h; omega
  · rw [Nat.mod_eq_of_lt h1, Nat.mod_eq_sub_mod h2,
      Nat.mod_eq_of_lt (by omega)] at h; omega
  · rw [Nat.mod_eq_sub_mod h1, Nat.mod_eq_of_lt (by omega),
      Nat.mod_eq_of_lt h2] at h; omega
  · rw [Nat.mod_eq_sub_mod h1, Nat.mod_eq_sub_mod h2,
      Nat.mod_eq_of_lt (by omega), Nat.mod_eq_of_lt (by omega)] at h; omega

theorem head_lt_of_WF {s : CVec α} (h : s.WF) (hc : 0 < s.capacity) :
    s.head < s.capacity := by
  rcases h.2 with h' | h'
  · exact h'
  · omega

theorem capacity_push_back (v : α) (s : CVec α) :
    (push_back v s).capacity = s.capacity := by
  unfold push_back
  split
  · rfl
  · split <;> simp [capacity]

theorem cap_pos_of_not_full {s : CVec α} (hwf : s.WF) (hne : ¬ s.count = s.capacity) :
    0 < s.capacity := by
  have := hwf.1
  omega

theorem push_back_not_full_eq {s : CVec α} (hwf : s.WF) (hne : ¬ s.count = s.capacity)
    (v : α) :
    push_back v s =
      { storage := s.storage.set ((s.head + s.count) % s.capacity) v
        head := s.head
        count := s.count + 1 } := by
  have hc := cap_pos_of_not_full hwf hne
  unfold push_back
  rw [if_neg (by omega), if_neg hne]

theorem push_back_full_eq {s : CVec α} (hc : 0 < s.capacity) (hfull : s.count = s.capacity)
    (v : α) :
    push_back v s =
      { storage := s.storage.set (s.head % s.capacity) v
        head := (s.head + 1) % s.capacity
        count := s.count } := by
  unfold push_back
  rw [if_neg (by omega), if_pos hfull]

theorem get_push_back_not_full_lt {s : CVec α} (hwf : s.WF) (hne : ¬ s.count = s.capacity)
    (v : α) {i : Nat} (hi : i < s.count) :
    (push_back v s).get i = s.get i := by
  have hc := cap_pos_of_not_full hwf hne
  have hh := head_lt_of_WF hwf hc
  have hcnt : s.count < s.capacity := Nat.lt_of_le_of_ne hwf.1 hne
  rw [push_back_not_full_eq hwf hne]
  simp only [get, capacity, List.length_set]
  rw [List.getElem?_set_ne]
  intro h
  have := slot_inj hh (by omega) (by omega) h
  omega

theorem get_push_back_not_full_last {s : CVec α} (hwf : s.WF)
    (hne : ¬ s.count = s.capacity) (v : α) :
    (push_back v s).get s.count = v := by
  have hc := cap_pos_of_not_full hwf hne
  rw [push_back_not_full_eq hwf hne]
  simp only [get, capacity, List.length_set]
  rw [List.getElem?_set_eq_of_lt]
  · rfl
  · exact Nat.mod_lt _ hc

theorem toList_push_back_not_full {s : CVec α} (hwf : s.WF)
    (hne : ¬ s.count = s.capacity) (v : α) :
    (push_back v s).toList = s.toList ++ [v] := by
  have hcount : (push_back v s).count = s.count + 1 := by
    rw [push_back_not_full_eq hwf hne]
  unfold toList
  rw [hcount, List.range_succ, List.map_append]
  congr 1
  · exact List.map_congr_left fun i hi =>
      get_push_back_not_full_lt hwf hne v (List.mem_range.mp hi)
  · simp [get_push_back_not_full_last hwf hne v]

theorem get_push_back_full_lt {s : CVec α} (hwf : s.WF) (hc : 0 < s.capacity)
    (hfull : s.count = s.capacity) (v : α) {i : Nat} (hi : i + 1 < s.capacity) :
    (push_back v s).get i = s.get (i + 1) := by
  have hh := head_lt_of_WF hwf hc
  rw [push_back_full_eq hc hfull]
  simp only [get, capacity, List.length_set]
  rw [show s.storage.length = s.capacity from rfl]
  rw [Nat.mod_add_mod, show s.head + 1 + i = s.head + (i + 1) by omega]
  rw [List.getElem?_set_ne]
  rw [Nat.mod_eq_of_lt hh]
  intro h
  have h' : (s.head + 0) % s.capacity = (s.head + (i + 1)) % s.capacity := by
    rw [Nat.add_zero, Nat.mod_eq_of_lt hh]; exact h
  have := slot_inj hh (by omega) (by omega) h'
  omega

theorem get_push_back_full_last {s : CVec α} (hwf : s.WF) (hc : 0 < s.capacity)
    (hfull : s.count = s.capacity) (v : α) :
    (push_back v s).get (s.capacity - 1) = v := by
  have hh := head_lt_of_WF hwf hc
  rw [push_back_full_eq hc hfull]
  simp only [get, capacity, List.length_set]
  rw [show s.storage.length = s.capacity from rfl]
  rw [Nat.mod_add_mod, show s.head + 1 + (s.capacity - 1) = s.head + s.capacity by omega,
    Nat.add_mod_right]
  rw [List.getElem?_set_eq_of_lt]
  · rfl
  · exact Nat.mod_lt _ hc

theorem toList_push_back_full {s : CVec α} (hwf : s.WF) (hc : 0 < s.capacity)
    (hfull : s.count = s.capacity) (v : α) :
    (push_back v s).toList = s.toList.tail ++ [v] := by
  have hcount : (push_back v s).count = s.count := by
    rw [push_back_full_eq hc hfull]
  obtain ⟨m, hm⟩ : ∃ m, s.capacity = m + 1 := ⟨s.capacity - 1, by omega⟩
  have htail : s.toList.tail = (List.range m).map (fun i => s.get (i + 1)) := by
    unfold toList
    rw [hfull, hm, List.range_succ_eq_map]
    simp [Function.comp, Nat.succ_eq_add_one]
  rw [htail]
  unfold toList
  rw [hcount, hfull, hm, List.range_succ, List.map_append]
  congr 1
  · exact List.map_congr_left fun i hi =>
      get_push_back_full_lt hwf hc hfull v (by have := List.mem_range.mp hi; omega)
  · have := get_push_back_full_last hwf hc hfull v
    rw [hm] at this
    simp only [Nat.add_sub_cancel] at this
    simp [this]

theorem WF_push_back {s : CVec α} (hwf : s.WF) (v : α) : (push_back v s).WF := by
  rcases Nat.eq_zero_or_pos s.capacity with hc | hc
  · unfold push_back
    rw [if_pos hc]
    exact hwf
  · by_cases hfull : s.count = s.capacity
    · rw [push_back_full_eq hc hfull]
      refine ⟨?_, Or.inl ?_⟩
      · simp only [capacity, List.length_set]
        exact hwf.1
      · simp only [capacity, List.length_set]
        exact Nat.mod_lt _ hc
    · have hcnt : s.count < s.capacity := Nat.lt_of_le_of_ne hwf.1 hfull
      rw [push_back_not_full_eq hwf hfull]
      refine ⟨?_, ?_⟩
      · simp only [capacity, List.length_set]
        exact hcnt
      · simpa only [capacity, List.length_set] using hwf.2

theorem lastN_of_length_le {n : Nat} {l : List α} (h : l.length ≤ n) :
    lastN n l = l := by
  unfold lastN
  rw [Nat.sub_eq_zero_of_le h, List.drop_zero]

theorem length_lastN (n : Nat) (l : List α) :
    (lastN n l).length = min n l.length := by
  unfold lastN
  rw [List.length_drop]
  omega

theorem lastN_drop (n k : Nat) (l : List α) (h : k + n ≤ l.length) :
    lastN n (l.drop k) = lastN n l := by
  unfold lastN
  rw [List.drop_drop, List.length_drop]
  congr 1
  omega

theorem lastN_append_absorb (n : Nat) (xs l : List α) :
    lastN n (lastN n xs ++ l) = lastN n (xs ++ l) := by
  rcases le_or_lt xs.length n with h | h
  · rw [lastN_of_length_le h]
  · have h0 : xs.length - n - xs.length = 0 := by omega
    have hdrop : lastN n xs ++ l = (xs ++ l).drop (xs.length - n) := by
      unfold lastN
      rw [List.drop_append_eq_append_drop, h0, List.drop_zero]
    rw [hdrop, lastN_drop]
    rw [List.length_append]
    omega

theorem toList_push_back {s : CVec α} (hwf : s.WF) (v : α) :
    (push_back v s).toList = lastN s.capacity (s.toList ++ [v]) := by
  rcases Nat.eq_zero_or_pos s.capacity with hc | hc
  · have hcount : s.count = 0 := by have := hwf.1; omega
    unfold push_back
    rw [if_pos hc]
    unfold toList lastN
    simp [hcount, hc]
  · by_cases hfull : s.count = s.capacity
    · rw [toList_push_back_full hwf hc hfull v]
      unfold lastN
      rw [List.length_append, length_toList, hfull, List.length_singleton]
      rw [show s.capacity + 1 - s.capacity = 1 by omega]
      cases htl : s.toList with
      | nil =>
          have := length_toList s
          rw [htl] at this
          simp at this
          omega
      | cons a t => simp
    · rw [toList_push_back_not_full hwf hfull v]
      have hcnt : s.count < s.capacity := Nat.lt_of_le_of_ne hwf.1 hfull
      rw [lastN_of_length_le]
      rw [List.length_append, length_toList, List.length_singleton]
      omega

theorem capacity_clear (s : CVec α) : s.clear.capacity = s.capacity := rfl

theorem toList_clear (s : CVec α) : s.clear.toList = [] := by
  unfold toList clear
  simp

theorem WF_clear (s : CVec α) : s.clear.WF :=
  ⟨Nat.zero_le _, Or.inr rfl⟩

theorem capacity_foldl_push_back (l : List α) (s : CVec α) :
    (l.foldl (fun t v => push_back v t) s).capacity = s.capacity := by
  induction l generalizing s with
  | nil => rfl
  | cons a l ih => rw [List.foldl_cons, ih, capacity_push_back]

theorem WF_foldl_push_back {s : CVec α} (hwf : s.WF) (l : List α) :
    (l.foldl (fun t v => push_back v t) s).WF := by
  induction l generalizing s with
  | nil => exact hwf
  | cons a l ih => exact ih (WF_push_back hwf a)

theorem toList_foldl_push_back {s : CVec α} (hwf : s.WF) (l : List α) :
    (l.foldl (fun t v => push_back v t) s).toList = lastN s.capacity (s.toList ++ l) := by
  induction l generalizing s with
  | nil =>
      rw [List.foldl_nil, List.append_nil]
      rw [lastN_of_length_le (by rw [length_toList]; exact hwf.1)]
  | cons a l ih =>
      rw [List.foldl_cons, ih (WF_push_back hwf a), capacity_push_back,
        toList_push_back hwf a, lastN_append_absorb, List.append_assoc]
      rfl

theorem push_front_eq {s : CVec α} (hc : 0 < s.capacity) (v : α) :
    push_front v s =
      { storage := s.storage.set ((s.head + s.capacity - 1) % s.capacity) v
        head := (s.head + s.capacity - 1) % s.capacity
        count := if s.count = s.capacity then s.count else s.count + 1 } := by
  unfold push_front
  rw [if_neg (by omega)]
  by_cases hfull : s.count = s.capacity
  · rw [if_pos hfull, if_pos hfull]
  · rw [if_neg hfull, if_neg hfull]

theorem newHead_lt {s : CVec α} (hc : 0 < s.capacity) :
    (s.head + s.capacity - 1) % s.capacity < s.capacity :=
  Nat.mod_lt _ hc

theorem newHead_succ_mod {s : CVec α} (hwf : s.WF) (hc : 0 < s.capacity) :
    ((s.head + s.capacity - 1) % s.capacity + 1) % s.capacity = s.head := by
  have hh := head_lt_of_WF hwf hc
  rw [Nat.mod_add_mod, show s.head + s.capacity - 1 + 1 = s.head + s.capacity by omega,
    Nat.add_mod_right, Nat.mod_eq_of_lt hh]

theorem get_push_front_zero {s : CVec α} (hwf : s.WF) (hc : 0 < s.capacity) (v : α) :
    (push_front v s).get 0 = v := by
  rw [push_front_eq hc]
  simp only [get, capacity, List.length_set]
  rw [show s.storage.length = s.capacity from rfl, Nat.add_zero,
    Nat.mod_eq_of_lt (newHead_lt hc)]
  rw [List.getElem?_set_eq_of_lt]
  · rfl
  · exact newHead_lt hc

theorem get_push_front_succ {s : CVec α} (hwf : s.WF) (hc : 0 < s.capacity) (v : α)
    {i : Nat} (hi : i < s.capacity - 1) :
    (push_front v s).get (i + 1) = s.get i := by
  have hh := head_lt_of_WF hwf hc
  rw [push_front_eq hc]
  simp only [get, capacity, List.length_set]
  rw [show s.storage.length = s.capacity from rfl]
  rw [show (s.head + s.capacity - 1) % s.capacity + (i + 1)
        = ((s.head + s.capacity - 1) % s.capacity + 1) + i by omega]
  rw [show (((s.head + s.capacity - 1) % s.capacity + 1) + i) % s.capacity
        = ((((s.head + s.capacity - 1) % s.capacity + 1) % s.capacity) + i) % s.capacity
      from (Nat.mod_add_mod _ _ _).symm]
  rw [newHead_succ_mod hwf hc]
  rw [List.getElem?_set_ne]
  intro h
  have h' : (s.head + (s.capacity - 1)) % s.capacity = (s.head + i) % s.capacity := by
    rw [show s.head + (s.capacity - 1) = s.head + s.capacity - 1 by omega]
    exact h
  have := slot_inj hh (by omega) (by omega) h'
  omega

theorem count_push_front {s : CVec α} (hc : 0 < s.capacity) (v : α) :
    (push_front v s).count = if s.count = s.capacity then s.count else s.count + 1 := by
  rw [push_front_eq hc]

theorem head_push_front {s : CVec α} (hc : 0 < s.capacity) (v : α) :
    (push_front v s).head = (s.head + s.capacity - 1) % s.capacity := by
  rw [push_front_eq hc]

theorem capacity_push_front (v : α) (s : CVec α) :
    (push_front v s).capacity = s.capacity := by
  unfold push_front
  split
  · rfl
  · split <;> simp [capacity]

theorem toList_push_front_not_full {s : CVec α} (hwf : s.WF)
    (hne : ¬ s.count = s.capacity) (v : α) :
    (push_front v s).toList = v :: s.toList := by
  have hc := cap_pos_of_not_full hwf hne
  have hcnt : s.count < s.capacity := Nat.lt_of_le_of_ne hwf.1 hne
  have hcount : (push_front v s).count = s.count + 1 := by
    rw [count_push_front hc, if_neg hne]
  unfold toList
  rw [hcount, List.range_succ_eq_map, List.map_cons, List.map_map]
  congr 1
  · exact get_push_front_zero hwf hc v
  · exact List.map_congr_left fun i hi => by
      have hi' := List.mem_range.mp hi
      exact get_push_front_succ hwf hc v (by omega)

theorem toList_push_front_full {s : CVec α} (hwf : s.WF) (hc : 0 < s.capacity)
    (hfull : s.count = s.capacity) (v : α) :
    (push_front v s).toList = v :: s.toList.dropLast := by
  have hcount : (push_front v s).count = s.count := by
    rw [count_push_front hc, if_pos hfull]
  obtain ⟨m, hm⟩ : ∃ m, s.capacity = m + 1 := ⟨s.capacity - 1, by omega⟩
  have hdrop : s.toList.dropLast = (List.range m).map s.get := by
    unfold toList
    rw [hfull, hm, List.range_succ, List.map_append, List.map_singleton,
      List.dropLast_concat]
  rw [hdrop]
  unfold toList
  rw [hcount, hfull, hm, List.range_succ_eq_map, List.map_cons, List.map_map]
  congr 1
  · exact get_push_front_zero hwf hc v
  · exact List.map_congr_left fun i hi => by
      have hi' := List.mem_range.mp hi
      exact get_push_front_succ hwf hc v (by omega)

theorem WF_push_front {s : CVec α} (hwf : s.WF) (v : α) : (push_front v s).WF := by
  rcases Nat.eq_zero_or_pos s.capacity with hc | hc
  · unfold push_front
    rw [if_pos hc]
    exact hwf
  · rw [push_front_eq hc]
    constructor
    · simp only [capacity, List.length_set]
      split
      · exact hwf.1
      · exact Nat.lt_of_le_of_ne hwf.1 (by assumption)
    · left
      simp only [capacity, List.length_set]
      exact newHead_lt hc

theorem capacity_assign (l : List α) (s : CVec α) :
    (assign l s).capacity = s.capacity := by
  unfold assign
  rw [capacity_foldl_push_back, capacity_clear]

theorem toList_assign {s : CVec α} (l : List α) :
    (assign l s).toList = lastN s.capacity l := by
  unfold assign
  rw [toList_foldl_push_back (WF_clear s), toList_clear, capacity_clear, List.nil_append]

theorem size_assign (l : List α) (s : CVec α) :
    (assign l s).size = min s.capacity l.length := by
  have h := congrArg List.length (toList_assign (s := s) l)
  rw [length_toList, length_lastN] at h
  exact h

theorem iterAux_eq_map_range (s : CVec α) (n i : Nat) :
    iterAux s n i = (List.range n).map (fun j => s.get (i + j)) := by
  induction n generalizing i with
  | zero => rfl
  | succ n ih =>
      rw [iterAux, List.range_succ_eq_map, List.map_cons, List.map_map, ih (i + 1)]
      congr 1
      apply List.map_congr_left
      intro a _
      show s.get (i + 1 + a) = s.get (i + (a + 1))
      congr 1
      omega

theorem iteration_eq_toList (s : CVec α) : s.iteration = s.toList := by
  unfold iteration toList
  rw [iterAux_eq_map_range]
  exact List.map_congr_left fun a _ => by rw [Nat.zero_add]

theorem getD_map_range {β : Type} [Inhabited β] (f : Nat → β) {n i : Nat} (h : i < n) :
    ((List.range n).map f).getD i default = f i := by
  rw [List.getD_eq_getElem?_getD, List.getElem?_map, List.getElem?_range h]
  rfl

theorem set_getD_self (l : List α) (n : Nat) (d : α) (h : n < l.length) :
    l.set n ((l[n]?).getD d) = l := by
  apply List.ext_getElem?
  intro i
  rcases eq_or_ne n i with rfl | hne
  · rw [List.getElem?_eq_getElem h, List.getElem?_set_self', List.getElem?_eq_getElem h]
    rfl
  · rw [List.getElem?_set_ne hne]

theorem toList_fromList (l : List α) : (fromList l).toList = l := by
  have hcount : (fromList l).count = l.length := rfl
  unfold toList
  rw [hcount]
  apply List.ext_getElem?
  intro i
  rw [List.getElem?_map]
  rcases Nat.lt_or_ge i l.length with h | h
  · rw [List.getElem?_range h, List.getElem?_eq_getElem h]
    show some ((l[(0 + i) % l.length]?).getD default) = _
    rw [Nat.zero_add, Nat.mod_eq_of_lt h, List.getElem?_eq_getElem h]
    rfl
  · have h1 : (List.range l.length)[i]? = none := List.getElem?_eq_none (by simpa using h)
    have h2 : l[i]? = none := List.getElem?_eq_none h
    rw [h1, h2]
    rfl

theorem applyOp_cap0 {s : CVec α} (hc : s.capacity = 0) (hn : s.count = 0)
    (op : Op α) : (s.applyOp op).capacity = 0 ∧ (s.applyOp op).count = 0 := by
  cases op with
  | pushB v =>
      show (push_back v s).capacity = 0 ∧ (push_back v s).count = 0
      unfold push_back
      rw [if_pos hc]
      exact ⟨hc, hn⟩
  | pushF v =>
      show (push_front v s).capacity = 0 ∧ (push_front v s).count = 0
      unfold push_front
      rw [if_pos hc]
      exact ⟨hc, hn⟩
  | popB => exact ⟨hc, by show s.count - 1 = 0; omega⟩
  | popF => exact ⟨hc, by show s.count - 1 = 0; omega⟩
  | clearOp => exact ⟨hc, rfl⟩
  | assignOp l =>
      refine ⟨by rw [show (s.applyOp (Op.assignOp l)) = assign l s from rfl,
        capacity_assign]; exact hc, ?_⟩
      have := size_assign l s
      rw [hc] at this
      simpa [size] using this

theorem applyOps_cap0 {s : CVec α} (hc : s.capacity = 0) (hn : s.count = 0)
    (ops : List (Op α)) : (applyOps ops s).capacity = 0 ∧ (applyOps ops s).count = 0 := by
  induction ops generalizing s with
  | nil => exact ⟨hc, hn⟩
  | cons op ops ih =>
      have h := applyOp_cap0 hc hn op
      exact ih h.1 h.2

/-- Claim C1: for every buffer with capacity C > 0 that is full
(`size() == C`), `push_back(v)` succeeds without failing: it evicts
exactly the element that was `front()` (the contents become the old
contents without their first element, with `v` appended), advances
`head` by one modulo C, makes `back() == v`, and `size()` remains C. -/
theorem claimC1 {s : CVec α} (hwf : s.WF) (hcap : 0 < s.capacity)
    (hfull : s.full = true) (v : α) :
    (push_back v s).head = (s.head + 1) % s.capacity ∧
    (push_back v s).back = v ∧
    (push_back v s).size = s.capacity ∧
    (push_back v s).toList = s.toList.tail ++ [v] := by
  have hf : s.count = s.capacity := by simpa [full] using hfull
  have hcnt : (push_back v s).count = s.count := by
    rw [push_back_full_eq hcap hf]
  refine ⟨?_, ?_, ?_, toList_push_back_full hwf hcap hf v⟩
  · rw [push_back_full_eq hcap hf]
  · unfold back
    rw [hcnt, hf]
    exact get_push_back_full_last hwf hcap hf v
  · show (push_back v s).count = s.capacity
    rw [hcnt, hf]

theorem claimC1_witness :
    ((CVec.mk [10, 20, 30] 1 3 : CVec Nat).WF ∧
      0 < (CVec.mk [10, 20, 30] 1 3 : CVec Nat).capacity ∧
      (CVec.mk [10, 20, 30] 1 3 : CVec Nat).full = true) ∧
    ((push_back 7 (CVec.mk [10, 20, 30] 1 3 : CVec Nat)).head
        = ((CVec.mk [10, 20, 30] 1 3 : CVec Nat).head + 1)
            % (CVec.mk [10, 20, 30] 1 3 : CVec Nat).capacity ∧
      (push_back 7 (CVec.mk [10, 20, 30] 1 3 : CVec Nat)).back = 7 ∧
      (push_back 7 (CVec.mk [10, 20, 30] 1 3 : CVec Nat)).size
        = (CVec.mk [10, 20, 30] 1 3 : CVec Nat).capacity ∧
      (push_back 7 (CVec.mk [10, 20, 30] 1 3 : CVec Nat)).toList
        = (CVec.mk [10, 20, 30] 1 3 : CVec Nat).toList.tail ++ [7]) :=
  ⟨⟨by decide, by decide, by decide⟩, claimC1 (by decide) (by decide) (by decide) 7⟩

/-- Claim C2: for every buffer with capacity C > 0, if the buffer is
full then `push_front(v)` overwrites the back element (the newest),
decrements `head` modulo C, makes `front() == v` and leaves `size()` at
C; if it is not full, `push_front(v)` decrements `head` modulo C,
constructs `v` there and increments `count`. -/
theorem claimC2 {s : CVec α} (hwf : s.WF) (hcap : 0 < s.capacity) (v : α) :
    (s.full = true →
      (push_front v s).head = (s.head + s.capacity - 1) % s.capacity ∧
      (push_front v s).front = v ∧
      (push_front v s).size = s.capacity ∧
      (push_front v s).toList = v :: s.toList.dropLast) ∧
    (s.full = false →
      (push_front v s).head = (s.head + s.capacity - 1) % s.capacity ∧
      (push_front v s).front = v ∧
      (push_front v s).count = s.count + 1 ∧
      (push_front v s).toList = v :: s.toList) := by
  constructor
  · intro hfull
    have hf : s.count = s.capacity := by simpa [full] using hfull
    refine ⟨head_push_front hcap v, get_push_front_zero hwf hcap v, ?_,
      toList_push_front_full hwf hcap hf v⟩
    show (push_front v s).count = s.capacity
    rw [count_push_front hcap, if_pos hf, hf]
  · intro hfull
    have hf : ¬ s.count = s.capacity := by simpa [full] using hfull
    refine ⟨head_push_front hcap v, get_push_front_zero hwf hcap v, ?_,
      toList_push_front_not_full hwf hf v⟩
    rw [count_push_front hcap, if_neg hf]

theorem claimC2_witness :
    ((CVec.mk [10, 20, 30] 1 3 : CVec Nat).WF ∧
      0 < (CVec.mk [10, 20, 30] 1 3 : CVec Nat).capacity ∧
      (CVec.mk [10, 20, 30] 1 3 : CVec Nat).full = true) ∧
    ((push_front 9 (CVec.mk [10, 20, 30] 1 3 : CVec Nat)).head
        = ((CVec.mk [10, 20, 30] 1 3 : CVec Nat).head
            + (CVec.mk [10, 20, 30] 1 3 : CVec Nat).capacity - 1)
            % (CVec.mk [10, 20, 30] 1 3 : CVec Nat).capacity ∧
      (push_front 9 (CVec.mk [10, 20, 30] 1 3 : CVec Nat)).front = 9 ∧
      (push_front 9 (CVec.mk [10, 20, 30] 1 3 : CVec Nat)).size
        = (CVec.mk [10, 20, 30] 1 3 : CVec Nat).capacity ∧
      (push_front 9 (CVec.mk [10, 20, 30] 1 3 : CVec Nat)).toList
        = 9 :: (CVec.mk [10, 20, 30] 1 3 : CVec Nat).toList.dropLast) :=
  ⟨⟨by decide, by decide, by decide⟩,
    (claimC2 (by decide) (by decide) 9).1 (by decide)⟩

/-- Claim C3: `assign(r)` is equivalent to `clear()` followed by a
`push_back` of each input element in order; when the input has at most
`capacity` elements the buffer afterwards holds exactly the input in
order with `size()` equal to the input length, and when it has strictly
more, the buffer holds exactly the last `capacity` elements of the
input in original relative order (with `size() == capacity`). -/
theorem claimC3 (l : List α) (s : CVec α) :
    assign l s = l.foldl (fun t v => push_back v t) s.clear ∧
    (l.length ≤ s.capacity →
      (assign l s).toList = l ∧ (assign l s).size = l.length) ∧
    (s.capacity < l.length →
      (assign l s).toList = l.drop (l.length - s.capacity) ∧
      (assign l s).size = s.capacity) := by
  refine ⟨rfl, ?_, ?_⟩
  · intro h
    refine ⟨?_, ?_⟩
    · rw [toList_assign, lastN_of_length_le h]
    · rw [size_assign]
      omega
  · intro h
    refine ⟨toList_assign l, ?_⟩
    rw [size_assign]
    omega

theorem claimC3_witness :
    ((CVec.mk [0, 0, 0] 0 0 : CVec Nat).capacity
        < ([4, 5, 6, 7, 8] : List Nat).length ∧
      (assign [4, 5, 6, 7, 8] (CVec.mk [0, 0, 0] 0 0 : CVec Nat)).toList
        = [4, 5, 6, 7, 8].drop
            (([4, 5, 6, 7, 8] : List Nat).length
              - (CVec.mk [0, 0, 0] 0 0 : CVec Nat).capacity) ∧
      (assign [4, 5, 6, 7, 8] (CVec.mk [0, 0, 0] 0 0 : CVec Nat)).size
        = (CVec.mk [0, 0, 0] 0 0 : CVec Nat).capacity) ∧
    (([1, 2] : List Nat).length ≤ (CVec.mk [0, 0, 0] 0 0 : CVec Nat).capacity ∧
      (assign [1, 2] (CVec.mk [0, 0, 0] 0 0 : CVec Nat)).toList = [1, 2] ∧
      (assign [1, 2] (CVec.mk [0, 0, 0] 0 0 : CVec Nat)).size
        = ([1, 2] : List Nat).length) :=
  ⟨⟨by decide,
      (claimC3 [4, 5, 6, 7, 8] (CVec.mk [0, 0, 0] 0 0)).2.2 (by decide)⟩,
    ⟨by decide, (claimC3 [1, 2] (CVec.mk [0, 0, 0] 0 0)).2.1 (by decide)⟩⟩

/-- Claim C4: for a buffer with capacity 0 (including a
default-constructed vector), `empty()` and `full()` both return true,
`size()` is 0 and stays 0 after any sequence of mutating operations,
and `push_back`/`push_front` are no-ops: no element is ever stored. -/
theorem claimC4 {s : CVec α} (hwf : s.WF) (hcap : s.capacity = 0) (v : α)
    (ops : List (Op α)) :
    s.empty = true ∧ s.full = true ∧ s.size = 0 ∧
    push_back v s = s ∧ push_front v s = s ∧
    (applyOps ops s).size = 0 ∧ (applyOps ops s).empty = true ∧
    (applyOps ops s).full = true := by
  have hn : s.count = 0 := by have := hwf.1; omega
  have h := applyOps_cap0 hcap hn ops
  refine ⟨?_, ?_, hn, ?_, ?_, h.2, ?_, ?_⟩
  · simp [empty, hn]
  · simp [full, hn, hcap]
  · unfold push_back
    rw [if_pos hcap]
  · unfold push_front
    rw [if_pos hcap]
  · simp [empty, h.2]
  · simp [full, h.1, h.2]

theorem claimC4_witness :
    ((mkEmpty : CVec Nat).WF ∧ (mkEmpty : CVec Nat).capacity = 0) ∧
    ((mkEmpty : CVec Nat).empty = true ∧ (mkEmpty : CVec Nat).full = true ∧
      (mkEmpty : CVec Nat).size = 0 ∧
      push_back 7 (mkEmpty : CVec Nat) = (mkEmpty : CVec Nat) ∧
      push_front 7 (mkEmpty : CVec Nat) = (mkEmpty : CVec Nat) ∧
      (applyOps [Op.pushB 1, Op.popF, Op.assignOp [2, 3], Op.pushF 4,
          Op.popB, Op.clearOp] (mkEmpty : CVec Nat)).size = 0 ∧
      (applyOps [Op.pushB 1, Op.popF, Op.assignOp [2, 3], Op.pushF 4,
          Op.popB, Op.clearOp] (mkEmpty : CVec Nat)).empty = true ∧
      (applyOps [Op.pushB 1, Op.popF, Op.assignOp [2, 3], Op.pushF 4,
          Op.popB, Op.clearOp] (mkEmpty : CVec Nat)).full = true) :=
  ⟨⟨by decide, by decide⟩,
    claimC4 (by decide) (by decide) 7
      [Op.pushB 1, Op.popF, Op.assignOp [2, 3], Op.pushF 4, Op.popB, Op.clearOp]⟩

/-- Claim C5: for every buffer state, iterating from `begin()` to
`end()` yields exactly `size()` elements, and the i-th element of the
iteration equals `operator[](i)` for every `0 <= i < size()`. -/
theorem claimC5 (s : CVec α) :
    s.iteration.length = s.size ∧
    ∀ i, i < s.size → s.iteration.getD i default = s.get i := by
  constructor
  · rw [iteration_eq_toList, length_toList]
    rfl
  · intro i hi
    rw [iteration_eq_toList]
    exact getD_map_range s.get hi

theorem claimC5_witness :
    1 < (CVec.mk [10, 20, 30] 2 3 : CVec Nat).size ∧
    (CVec.mk [10, 20, 30] 2 3 : CVec Nat).iteration.length
      = (CVec.mk [10, 20, 30] 2 3 : CVec Nat).size ∧
    (CVec.mk [10, 20, 30] 2 3 : CVec Nat).iteration.getD 1 default
      = (CVec.mk [10, 20, 30] 2 3 : CVec Nat).get 1 :=
  ⟨by decide, (claimC5 (CVec.mk [10, 20, 30] 2 3)).1,
    (claimC5 (CVec.mk [10, 20, 30] 2 3)).2 1 (by decide)⟩

/-- Claim C6: constructing a vector from an iterator range yields
`capacity()` equal to the input length and `size() == capacity()`, with
all input elements live in input order — so this constructor never
triggers the overwrite-oldest eviction (no input element is lost). -/
theorem claimC6 (l : List α) :
    (fromList l).capacity = l.length ∧
    (fromList l).size = (fromList l).capacity ∧
    (fromList l).toList = l :=
  ⟨rfl, rfl, toList_fromList l⟩

/-- Claim C7: for every non-empty buffer, `move_back()` (obtaining value
v) followed by `push_back(v)` with no intervening mutation restores the
buffer to exactly the state it had before the `move_back()` call. -/
theorem claimC7 {s : CVec α} (hwf : s.WF) (hpos : 0 < s.count) :
    push_back s.move_back.1 s.move_back.2 = s := by
  obtain ⟨st, hd, cnt⟩ := s
  have hpos' : 0 < cnt := hpos
  have h1 : cnt ≤ st.length := hwf.1
  have hc : 0 < st.length := by omega
  have hwf' : (CVec.mk st hd (cnt - 1)).WF :=
    ⟨Nat.le_trans (Nat.sub_le _ _) h1, hwf.2⟩
  have hne' : ¬ (CVec.mk st hd (cnt - 1)).count = (CVec.mk st hd (cnt - 1)).capacity := by
    show ¬ cnt - 1 = st.length
    omega
  show push_back (CVec.mk st hd cnt).back (CVec.mk st hd (cnt - 1)) = CVec.mk st hd cnt
  rw [push_back_not_full_eq hwf' hne']
  have hcnt : cnt - 1 + 1 = cnt := by omega
  have hset : st.set ((hd + (cnt - 1)) % st.length)
      ((st[(hd + (cnt - 1)) % st.length]?).getD default) = st :=
    set_getD_self st _ default (Nat.mod_lt _ hc)
  show CVec.mk (st.set ((hd + (cnt - 1)) % st.length)
      ((st[(hd + (cnt - 1)) % st.length]?).getD default)) hd (cnt - 1 + 1)
    = CVec.mk st hd cnt
  rw [hset, hcnt]

theorem claimC7_witness :
    ((CVec.mk [10, 20, 30] 2 2 : CVec Nat).WF ∧
      0 < (CVec.mk [10, 20, 30] 2 2 : CVec Nat).count) ∧
    push_back (CVec.mk [10, 20, 30] 2 2 : CVec Nat).move_back.1
        (CVec.mk [10, 20, 30] 2 2 : CVec Nat).move_back.2
      = (CVec.mk [10, 20, 30] 2 2 : CVec Nat) :=
  ⟨⟨by decide, by decide⟩, claimC7 (by decide) (by decide)⟩

/-- Claim C8: after move construction, the destination holds the
source's former elements and capacity, while the moved-from source is
left in a valid empty state with zero capacity and `size() == 0`. -/
theorem claimC8 (s : CVec α) :
    (moveConstruct s).1 = s ∧
    (moveConstruct s).1.toList = s.toList ∧
    (moveConstruct s).1.capacity = s.capacity ∧
    (moveConstruct s).2.size = 0 ∧
    (moveConstruct s).2.capacity = 0 ∧
    (moveConstruct s).2.empty = true :=
  ⟨rfl, rfl, rfl, rfl, rfl, rfl⟩

/-- Claim C10: assigning an initializer list via `operator=` recreates
the vector so that `capacity()` and `size()` both equal the input
length and the contents equal the input; by contrast the member
`assign()` preserves the existing capacity. -/
theorem claimC10 (l : List α) (s : CVec α) :
    (assignInitList l s).capacity = l.length ∧
    (assignInitList l s).size = l.length ∧
    (assignInitList l s).toList = l ∧
    (assign l s).capacity = s.capacity :=
  ⟨rfl, rfl, toList_fromList l, capacity_assign l s⟩

end CVec

end TrialCircular
